import Mathlib

/-!
# Verification of the WUVision tile-pairing and crop-sampling scripts

Shallow embedding of `src/crop_images.py` and `src/get_all_valid_tiles.py`
(the tile-pairing / crop-sampling core of the repository) and proofs about it.

Modelling conventions:
* Python `int` is modelled by `Int` (or `Nat` where the source value is
  provably non-negative); Python float arithmetic on normalized coordinates
  and intensity ratios is modelled by exact rational arithmetic over `ℚ`.
* An opened raster (`PIL.Image`) is modelled by `ImageRGB`: a width, a height
  and a pixel function giving the raw 0..255 value of each of the 3 channels.
  `PIL.Image.crop` pads regions outside the raster with zeros, which the
  accessor `pxAt` reproduces.
* Filesystem interaction is made explicit: directory listings are passed as
  `List String` arguments, and functions that create `pair_<N>` directories
  return the list of slot names they write.
* A Python statement that can raise (`int(...)` on a non-numeric string) is
  modelled with `Option`: `none` is an escaping `ValueError`.
-/

namespace WUVision

/-! ## Python-primitive helpers -/

/-- Truncation toward zero, the behaviour of Python's `int()` on a float. -/
def pyTrunc (q : ℚ) : Int :=
  if 0 ≤ q then ⌊q⌋ else ⌈q⌉

/-- Loop of `range(cur, stop, step)` for a positive step: the values
`cur, cur+step, ...` strictly below `stop`. -/
def rangeGo (cur stop : Int) (step : Nat) : List Int :=
  if h : cur < stop ∧ 0 < step then
    cur :: rangeGo (cur + step) stop step
  else []
termination_by (stop - cur).toNat
decreasing_by omega

/-- Python `range(0, stop, step)` (with `step > 0`; an empty or negative
`stop` yields the empty list, as in Python). -/
def pyRange (stop : Int) (step : Nat) : List Int :=
  rangeGo 0 stop step

/-- Lexicographic comparison of character lists by code point: exactly how
Python compares two strings with `<=`. -/
def lexLe : List Char → List Char → Bool
  | [], _ => true
  | _ :: _, [] => false
  | a :: as, b :: bs =>
    if a.toNat < b.toNat then true
    else if b.toNat < a.toNat then false
    else lexLe as bs

/-- Helper for `pySplit`: accumulates the current field (reversed). -/
def splitAux (sep : Char) : List Char → List Char → List String
  | [], acc => [String.mk acc.reverse]
  | c :: cs, acc =>
    if c = sep then String.mk acc.reverse :: splitAux sep cs []
    else splitAux sep cs (c :: acc)

/-- Python `s.split(sep)` for a single-character separator: splits at every
occurrence, keeping empty fields (`"pair_".split("_") == ["pair", ""]`). -/
def pySplit (sep : Char) (s : String) : List String :=
  splitAux sep s.data []

/-- Python `s.startswith(pre)`. -/
def pyStartswith (pre s : String) : Bool :=
  List.isPrefixOf pre.data s.data

/-- Value of a non-empty list of decimal digits. -/
def digitsVal (ds : List Char) : Nat :=
  ds.foldl (fun a c => 10 * a + (c.toNat - '0'.toNat)) 0

/-- Parse of a digit run: `some` iff the list is non-empty and all digits. -/
def digitsToNat (ds : List Char) : Option Nat :=
  if ds ≠ [] ∧ ds.all Char.isDigit then some (digitsVal ds) else none

/-- Python `int(s)` on a string: optional surrounding whitespace, an optional
single sign, then at least one decimal digit; anything else raises
`ValueError`, modelled as `none`.  (Python also accepts `_` as a digit-group
separator; the strings this repository parses with `int` are fields of a
`split('_')` and therefore never contain an underscore.) -/
def pyIntOfString (s : String) : Option Int :=
  let t := ((s.data.dropWhile Char.isWhitespace).reverse.dropWhile
    Char.isWhitespace).reverse
  match t with
  | '+' :: ds => (digitsToNat ds).map (fun n => (n : Int))
  | '-' :: ds => (digitsToNat ds).map (fun n => -(n : Int))
  | ds => (digitsToNat ds).map (fun n => (n : Int))

/-- Runs `f` over the list, failing (an escaping exception) as soon as one
element fails; models a Python list comprehension whose body may raise. -/
def mapOrFail (f : α → Option β) : List α → Option (List β)
  | [] => some []
  | a :: as =>
    match f a, mapOrFail f as with
    | some b, some bs => some (b :: bs)
    | _, _ => none

/-! ## Raster model -/

/-- An opened RGB raster: `px x y c` is the raw 0..255 sample of channel `c`
at pixel column `x`, row `y` (only the values inside
`[0,width) × [0,height)` matter; see `pxAt`). -/
structure ImageRGB where
  width : Nat
  height : Nat
  px : Int → Int → Fin 3 → Nat

/-- Sample read with the zero padding `PIL.Image.crop` applies outside the
raster bounds. -/
def pxAt (img : ImageRGB) (x y : Int) (c : Fin 3) : Nat :=
  if 0 ≤ x ∧ x < img.width ∧ 0 ≤ y ∧ y < img.height then img.px x y c else 0

/-- The three RGB channels. -/
def channels : List (Fin 3) := [0, 1, 2]

/-- Pixel coordinates of the crop `bbox = (left, top, right, bottom)`,
row-major, as produced by `image.crop(bbox)`. -/
def cropCoords (bbox : Int × Int × Int × Int) : List (Int × Int) :=
  let (l, t, r, b) := bbox
  (List.range (b - t).toNat).flatMap fun (dy : Nat) =>
    (List.range (r - l).toNat).map fun (dx : Nat) => (l + (dx : Int), t + (dy : Int))

/-- The flattened channel samples of the crop — the elements of
`np.array(image.crop(bbox))` in memory order. -/
def cropSamples (img : ImageRGB) (bbox : Int × Int × Int × Int) : List Nat :=
  (cropCoords bbox).flatMap fun p => channels.map fun c => pxAt img p.1 p.2 c

/-- The test `crop_array > 0.1` on one sample: its normalized intensity
`v / 255` exceeds `0.1`. -/
def nonBlack (v : Nat) : Bool :=
  decide ((1 : ℚ) / 10 < (v : ℚ) / 255)

/-- `is_valid_crop(image, bbox, threshold)`, the body shared verbatim by
`crop_images.py` (default threshold `0.01`) and `get_all_valid_tiles.py`
(default threshold `0.9`): count the channel samples brighter than `0.1`
after normalizing by 255, divide by `numel / 3`, and compare strictly
against the threshold.  (For an empty crop the source divides by zero,
producing `nan`, and `nan > t` is false; in `ℚ` the quotient is `0` and the
comparison is likewise false for the thresholds used.) -/
def is_valid_crop (img : ImageRGB) (bbox : Int × Int × Int × Int)
    (threshold : ℚ) : Bool :=
  let samples := cropSamples img bbox
  let non_black_pixels := samples.countP nonBlack
  let total_pixels : ℚ := (samples.length : ℚ) / 3
  decide ((non_black_pixels : ℚ) / total_pixels > threshold)

/-! ## `crop_images.py` / `get_all_valid_tiles.py`: pair location

`get_image_pairs` is duplicated verbatim in both scripts; it is embedded
once.  The `os.listdir` result is passed in as `files`; the
`os.path.join(base_path, ·)` prefixing of the returned filenames is path
assembly on the way out and is left to the caller. -/

/-- The match of `re.match(r'(\d{4}-\d{2}-\d{2})_(.+)', file)`: ten
characters `YYYY-MM-DD`, an underscore, and at least one further
(non-newline) character; on success returns the captured date string. -/
def parseDate (s : String) : Option String :=
  match s.data with
  | y1 :: y2 :: y3 :: y4 :: '-' :: m1 :: m2 :: '-' :: d1 :: d2 :: '_' :: c :: _ =>
    if y1.isDigit ∧ y2.isDigit ∧ y3.isDigit ∧ y4.isDigit ∧ m1.isDigit ∧
        m2.isDigit ∧ d1.isDigit ∧ d2.isDigit ∧ c ≠ '\n' then
      some (String.mk [y1, y2, y3, y4, '-', m1, m2, '-', d1, d2])
    else none
  | _ => none

/-- The `dated_files` list: `(date_str, file)` for each file whose name
matches the date pattern; non-matching files are discarded. -/
def datedFiles (files : List String) : List (String × String) :=
  files.filterMap fun f => (parseDate f).map fun d => (d, f)

/-- The sort key of `dated_files.sort(key=lambda x: x[0])`: compare the date
strings as Python compares strings (lexicographically by code point).
(Python's sort is stable; the tie order among equal dates is documented
nondeterminism and no theorem below depends on it.) -/
def dateKeyLe (p q : String × String) : Prop :=
  lexLe p.1.data q.1.data = true

instance : DecidableRel dateKeyLe := fun p q => by
  unfold dateKeyLe; infer_instance

/-- `get_image_pairs(disaster, location)` after the directory listing
`files`: sort the dated files by date and, when at least two remain, return
the earliest-dated and latest-dated filenames; otherwise no pair. -/
def get_image_pairs (files : List String) : Option (String × String) :=
  let dated_files := List.insertionSort dateKeyLe (datedFiles files)
  match dated_files with
  | a :: b :: t =>
    some (a.2, ((b :: t).getLast (List.cons_ne_nil b t)).2)
  | _ => none

/-! ## `crop_images.py`: output-slot allocation -/

/-- `get_next_pair_number(output_base)`.  The argument is the listing of the
subdirectory names of `output_base` (the source filters `os.listdir` by
`os.path.isdir`).  `none` models the `ValueError` escaping from `int()` when
a `pair_`-prefixed name has a non-numeric second field. -/
def get_next_pair_number (listing : List String) : Option Int :=
  let existing := listing.filter fun d => pyStartswith "pair_" d
  if existing = [] then some 1
  else
    match mapOrFail (fun d => ((pySplit '_' d)[1]?).bind pyIntOfString) existing with
    | none => none
    | some pair_numbers =>
      match pair_numbers.max? with
      | none => none
      | some m => some (m + 1)

/-- The integer suffixes the allocator's scan extracts: one `Int` per
`pair_`-prefixed subdirectory whose second `_`-field parses. -/
def pairNums (listing : List String) : List Int :=
  listing.filterMap fun d =>
    if pyStartswith "pair_" d then ((pySplit '_' d)[1]?).bind pyIntOfString
    else none

/-! ## `crop_images.py`: random crop sampling -/

/-- `get_random_bounding_box(size, res)` with the two `random.randint` draws
`x` and `y` passed in (the draws satisfy `x ≤ max 0 (width - res_width)` and
`y ≤ max 0 (height - res_height)`; theorems state this as a hypothesis).
Returns `(minx, maxx, miny, maxy)` in normalized coordinates. -/
def get_random_bounding_box (size res : Nat × Nat) (x y : Nat) :
    ℚ × ℚ × ℚ × ℚ :=
  let (height, width) := size
  let (res_height, res_width) := res
  ((x : ℚ) / width, ((x : ℚ) + res_width) / width,
   (y : ℚ) / height, ((y : ℚ) + res_height) / height)

/-- `bbox_to_yx_np(bbox, size)`: back to pixel coordinates
`(top, left, bottom, right)`, truncating with `int()`. -/
def bbox_to_yx_np (bbox : ℚ × ℚ × ℚ × ℚ) (size : Nat × Nat) :
    Int × Int × Int × Int :=
  let (height, width) := size
  let (minx, maxx, miny, maxy) := bbox
  (pyTrunc (miny * height), pyTrunc (minx * width),
   pyTrunc (maxy * height), pyTrunc (maxx * width))

/-- One iteration of `crop_image_pair`'s attempt loop, drawn values
`draws i = (x, y)`: the box is generated from the before image's size and
both images must pass `is_valid_crop` with the default threshold `0.01`. -/
def attemptValid (before after : ImageRGB) (crop_size : Nat)
    (draws : Nat → Nat × Nat) (i : Nat) : Bool :=
  let (x, y) := draws i
  let bbox := get_random_bounding_box (before.height, before.width)
    (crop_size, crop_size) x y
  let (top, left, bottom, right) :=
    bbox_to_yx_np bbox (before.height, before.width)
  is_valid_crop before (left, top, right, bottom) (1 / 100) &&
    is_valid_crop after (left, top, right, bottom) (1 / 100)

/-- The `for _ in range(max_attempts)` loop of `crop_image_pair`, with
`fuel` attempts remaining and `i` attempts already made.  Returns the
result (the output folder, or `none`), the list of slot directories created,
and the number of attempts performed.  On a valid crop the slot number comes
from `get_next_pair_number existing`; if that raises (`none`), the
exception is caught by the surrounding `try/except`, which returns `None`
having written nothing. -/
def cropLoop (before after : ImageRGB) (crop_size : Nat)
    (existing : List String) (draws : Nat → Nat × Nat) :
    Nat → Nat → Option String × List String × Nat
  | 0, _ => (none, [], 0)
  | fuel + 1, i =>
    if attemptValid before after crop_size draws i then
      match get_next_pair_number existing with
      | some k => (some ("pair_" ++ toString k), ["pair_" ++ toString k], 1)
      | none => (none, [], 1)
    else
      let rest := cropLoop before after crop_size existing draws fuel (i + 1)
      (rest.1, rest.2.1, rest.2.2 + 1)

/-- `crop_image_pair(before_path, after_path, output_base, crop_size,
max_attempts)`: up to `max_attempts` random attempts, first success wins.
`existing` is the listing of `output_base` consulted by the allocator,
`draws` the stream of random corner draws. -/
def crop_image_pair (before after : ImageRGB) (existing : List String)
    (crop_size max_attempts : Nat) (draws : Nat → Nat × Nat) :
    Option String × List String × Nat :=
  cropLoop before after crop_size existing draws max_attempts 0

/-! ## `get_all_valid_tiles.py`: exhaustive tiling -/

/-- The candidate boxes of `process_image_pair`'s grid loops:
`for y in range(0, height - crop_size + 1, crop_size)` outer,
`for x in range(0, width - crop_size + 1, crop_size)` inner, box
`(x, y, x + crop_size, y + crop_size)`. -/
def candidateBoxes (width height crop_size : Nat) :
    List (Int × Int × Int × Int) :=
  (pyRange ((height : Int) - crop_size + 1) crop_size).flatMap fun y =>
    (pyRange ((width : Int) - crop_size + 1) crop_size).map fun x =>
      (x, y, x + crop_size, y + crop_size)

/-- `process_image_pair(before_path, after_path, output_base, crop_size)`:
walk the candidate grid (sized from the before image), and for every box
valid in both images (strict threshold `0.9`) write a slot named
`pair_<valid_crops>` and increment the counter.  Returns the slot names
written, in order, and the final `valid_crops` count. -/
def process_image_pair (before after : ImageRGB) (crop_size : Nat) :
    List String × Nat :=
  (candidateBoxes before.width before.height crop_size).foldl
    (fun acc bbox =>
      if is_valid_crop before bbox (9 / 10) &&
          is_valid_crop after bbox (9 / 10) then
        (acc.1 ++ ["pair_" ++ toString acc.2], acc.2 + 1)
      else acc)
    ([], 0)

/-! ## Spec-side notions and concrete instances used by the theorems -/

/-- Two pixel boxes `(left, top, right, bottom)` do not overlap. -/
def boxesDisjoint (b1 b2 : Int × Int × Int × Int) : Prop :=
  b1.2.2.1 ≤ b2.1 ∨ b2.2.2.1 ≤ b1.1 ∨ b1.2.2.2 ≤ b2.2.1 ∨ b2.2.2.2 ≤ b1.2.1

/-- Spec-side description of a populated output directory: the slot names
`pair_0 .. pair_(k-1)`. -/
def pairSlotNames (k : Nat) : List String :=
  (List.range k).map fun i => "pair_" ++ toString i

/-- Number of crop pixels whose three channels are all non-black
(normalized intensity above `0.1`). -/
def fullNonBlackPixels (img : ImageRGB) (bbox : Int × Int × Int × Int) : Nat :=
  (cropCoords bbox).countP fun p =>
    decide (∀ c : Fin 3, (1 : ℚ) / 10 < (pxAt img p.1 p.2 c : ℚ) / 255)

/-- Number of crop pixels with at least one non-black channel. -/
def someNonBlackPixels (img : ImageRGB) (bbox : Int × Int × Int × Int) : Nat :=
  (cropCoords bbox).countP fun p =>
    decide (∃ c : Fin 3, (1 : ℚ) / 10 < (pxAt img p.1 p.2 c : ℚ) / 255)

/-- Number of crop pixels with at least one non-zero channel sample. -/
def nonZeroPixels (img : ImageRGB) (bbox : Int × Int × Int × Int) : Nat :=
  (cropCoords bbox).countP fun p => decide (∃ c : Fin 3, 0 < pxAt img p.1 p.2 c)

/-- A 1×1 all-white raster. -/
def whiteImg1 : ImageRGB := ⟨1, 1, fun _ _ _ => 255⟩

/-- A 10×1 raster with nine white pixels and one black pixel: exactly 90% of
its pixels are non-black. -/
def img9010 : ImageRGB := ⟨10, 1, fun x _ _ => if x ≤ 8 then 255 else 0⟩

/-- A 50×1 raster with one pixel of raw value 10 (non-zero but below the
`0.1` intensity cut) and 49 black pixels: exactly 2% of its pixels are
non-zero, none is brighter than `0.1`. -/
def imgDim2pct : ImageRGB := ⟨50, 1, fun x _ _ => if x = 0 then 10 else 0⟩

/-- A 50×1 raster with one white pixel and 49 black pixels: exactly 2% of
its pixels are non-black. -/
def imgBright2pct : ImageRGB := ⟨50, 1, fun x _ _ => if x = 0 then 255 else 0⟩

/-- A 10×1 raster with four white and six black pixels: 40% of its pixels
are fully non-black. -/
def img40pct : ImageRGB := ⟨10, 1, fun x _ _ => if x ≤ 3 then 255 else 0⟩

/-! ## Helper lemmas: intensity threshold and sample counting -/

/-- A raw 0..255 sample exceeds normalized intensity `0.1` iff it is at
least 26 (`25/255 < 0.1 < 26/255`; no sample value is close enough to the
boundary for the source's float rounding to decide differently). -/
lemma intensity_gt_iff (v : Nat) : (1 : ℚ) / 10 < (v : ℚ) / 255 ↔ 26 ≤ v := by
  rw [div_lt_div_iff₀ (by norm_num) (by norm_num)]
  constructor
  · intro h
    by_contra hc
    push_neg at hc
    have h25 : (v : ℚ) ≤ 25 := by exact_mod_cast Nat.le_of_lt_succ hc
    nlinarith
  · intro h
    have h26 : (26 : ℚ) ≤ (v : ℚ) := by exact_mod_cast h
    nlinarith

/-- The sample test as a decidable `Nat` predicate. -/
lemma nonBlack_eq : nonBlack = fun v => decide (26 ≤ v) := by
  funext v
  unfold nonBlack
  exact decide_eq_decide.mpr (intensity_gt_iff v)

/-- Fully-non-black pixel count as a decidable `Nat` predicate. -/
lemma fullNonBlackPixels_eq (img : ImageRGB) (bbox : Int × Int × Int × Int) :
    fullNonBlackPixels img bbox =
      (cropCoords bbox).countP fun p =>
        decide (∀ c : Fin 3, 26 ≤ pxAt img p.1 p.2 c) := by
  unfold fullNonBlackPixels
  apply List.countP_congr
  intro p _
  simp only [decide_eq_true_eq]
  exact forall_congr' fun c => intensity_gt_iff _

/-- Some-non-black pixel count as a decidable `Nat` predicate. -/
lemma someNonBlackPixels_eq (img : ImageRGB) (bbox : Int × Int × Int × Int) :
    someNonBlackPixels img bbox =
      (cropCoords bbox).countP fun p =>
        decide (∃ c : Fin 3, 26 ≤ pxAt img p.1 p.2 c) := by
  unfold someNonBlackPixels
  apply List.countP_congr
  intro p _
  simp only [decide_eq_true_eq]
  exact exists_congr fun c => intensity_gt_iff _

lemma countP_flatMap (p : β → Bool) (l : List α) (f : α → List β) :
    (l.flatMap f).countP p = (l.map fun a => (f a).countP p).sum := by
  induction l with
  | nil => simp
  | cons a t ih => simp [List.flatMap_cons, List.countP_append, ih]

/-- A sum dominated termwise by a constant. -/
lemma sum_map_le_mul_length (f : α → Nat) (c : Nat) (l : List α)
    (h : ∀ a ∈ l, f a ≤ c) : (l.map f).sum ≤ c * l.length := by
  induction l with
  | nil => simp
  | cons a t ih =>
    have ha := h a (List.mem_cons_self a t)
    have ht := ih fun x hx => h x (List.mem_cons_of_mem a hx)
    simp only [List.map_cons, List.sum_cons, List.length_cons]
    calc f a + (t.map f).sum ≤ c + c * t.length := Nat.add_le_add ha ht
      _ = c * (t.length + 1) := by ring

/-- A sum bounded below by `c` on every element a predicate counts. -/
lemma countP_mul_le_sum_map (p : α → Bool) (f : α → Nat) (c : Nat) (l : List α)
    (h : ∀ a ∈ l, p a = true → c ≤ f a) : c * l.countP p ≤ (l.map f).sum := by
  induction l with
  | nil => simp
  | cons a t ih =>
    have ht := ih fun x hx => h x (List.mem_cons_of_mem a hx)
    simp only [List.map_cons, List.sum_cons, List.countP_cons]
    rcases hp : p a with hfalse | htrue
    · simp only [hp, if_neg Bool.false_ne_true, Nat.add_zero]
      exact ht.trans (Nat.le_add_left _ _)
    · have ha := h a (List.mem_cons_self a t) hp
      simp only [hp, if_pos rfl]
      calc c * (t.countP p + 1) = c * t.countP p + c := by ring
        _ ≤ (t.map f).sum + f a := Nat.add_le_add ht ha
        _ = f a + (t.map f).sum := Nat.add_comm _ _

/-- There are three channel samples per crop pixel. -/
lemma cropSamples_length (img : ImageRGB) (bbox : Int × Int × Int × Int) :
    (cropSamples img bbox).length = 3 * (cropCoords bbox).length := by
  unfold cropSamples
  rw [List.length_flatMap]
  have h : List.length ∘ (fun p : Int × Int => channels.map fun c => pxAt img p.1 p.2 c)
      = fun _ => 3 := by
    funext p
    simp [channels]
  rw [h, List.map_const', List.sum_replicate, smul_eq_mul, Nat.mul_comm]

/-- Pixel count of the crop box `(l, t, r, b)`. -/
lemma cropCoords_length (l t r b : Int) :
    (cropCoords (l, t, r, b)).length = (r - l).toNat * (b - t).toNat := by
  unfold cropCoords
  rw [List.length_flatMap]
  have h : List.length ∘ (fun dy : Nat => (List.range (r - l).toNat).map
      fun dx : Nat => (l + (dx : Int), t + (dy : Int))) = fun _ => (r - l).toNat := by
    funext dy
    simp
  rw [h, List.map_const', List.sum_replicate, smul_eq_mul, List.length_range,
    Nat.mul_comm]

/-- The non-black sample count never exceeds three per pixel. -/
lemma nonBlackCount_le (img : ImageRGB) (bbox : Int × Int × Int × Int) :
    (cropSamples img bbox).countP nonBlack ≤ 3 * (cropCoords bbox).length := by
  unfold cropSamples
  rw [countP_flatMap]
  apply sum_map_le_mul_length
  intro p _
  calc ((channels.map fun c => pxAt img p.1 p.2 c).countP nonBlack)
      ≤ (channels.map fun c => pxAt img p.1 p.2 c).length := List.countP_le_length _
    _ = 3 := by simp [channels]

/-- Each fully-non-black pixel contributes three non-black samples. -/
lemma three_mul_full_le (img : ImageRGB) (bbox : Int × Int × Int × Int) :
    3 * fullNonBlackPixels img bbox ≤ (cropSamples img bbox).countP nonBlack := by
  unfold cropSamples fullNonBlackPixels
  rw [countP_flatMap]
  apply countP_mul_le_sum_map
  intro p _ hp
  have h := of_decide_eq_true hp
  have hc : ∀ c : Fin 3, nonBlack (pxAt img p.1 p.2 c) = true := fun c =>
    decide_eq_true (h c)
  have : (channels.map fun c => pxAt img p.1 p.2 c).countP nonBlack = 3 := by
    simp [channels, List.countP_cons, hc 0, hc 1, hc 2]
  omega

/-- Each pixel with a non-black channel contributes a non-black sample. -/
lemma some_le_nonBlackCount (img : ImageRGB) (bbox : Int × Int × Int × Int) :
    someNonBlackPixels img bbox ≤ (cropSamples img bbox).countP nonBlack := by
  unfold cropSamples someNonBlackPixels
  rw [countP_flatMap, ← Nat.one_mul (List.countP _ (cropCoords bbox))]
  apply countP_mul_le_sum_map
  intro p _ hp
  obtain ⟨c, hc⟩ := of_decide_eq_true hp
  have hmem : pxAt img p.1 p.2 c ∈ channels.map fun c => pxAt img p.1 p.2 c :=
    List.mem_map_of_mem _ (by fin_cases c <;> simp [channels])
  exact List.countP_pos_iff.mpr ⟨_, hmem, decide_eq_true hc⟩

/-- `is_valid_crop` on a non-empty crop, denominator cleared: valid iff the
non-black sample count strictly exceeds `threshold` times the pixel count. -/
lemma is_valid_crop_eq_true_iff (img : ImageRGB) (bbox : Int × Int × Int × Int)
    (threshold : ℚ) (hN : 0 < (cropCoords bbox).length) :
    is_valid_crop img bbox threshold = true ↔
      threshold * ((cropCoords bbox).length : ℚ) <
        ((cropSamples img bbox).countP nonBlack : ℚ) := by
  unfold is_valid_crop
  rw [decide_eq_true_iff]
  have hlen : ((cropSamples img bbox).length : ℚ) / 3 = ((cropCoords bbox).length : ℚ) := by
    rw [cropSamples_length]
    push_cast
    ring
  have hNq : (0 : ℚ) < ((cropCoords bbox).length : ℚ) := by exact_mod_cast hN
  rw [hlen, gt_iff_lt, lt_div_iff₀ hNq]

/-! ## Claims C9, C2, C5: the validity filter -/

/-- **C9** (confirmed): both validity filters divide the number of channel
samples above intensity `0.1` — counted separately over all three channels —
by the pixel count, so the ratio ranges over `[0, 3]`; in particular a crop
whose fully-non-black pixels exceed 30% of its pixels passes the strict
threshold `0.9`. -/
theorem C9_ratio_counts_channel_samples (img : ImageRGB)
    (bbox : Int × Int × Int × Int) (hN : 0 < (cropCoords bbox).length) :
    (cropSamples img bbox).countP nonBlack ≤ 3 * (cropCoords bbox).length
    ∧ (is_valid_crop img bbox (9 / 10) = true ↔
        (9 : ℚ) / 10 * ((cropCoords bbox).length : ℚ) <
          ((cropSamples img bbox).countP nonBlack : ℚ))
    ∧ (3 * (cropCoords bbox).length < 10 * fullNonBlackPixels img bbox →
        is_valid_crop img bbox (9 / 10) = true) := by
  refine ⟨nonBlackCount_le _ _, is_valid_crop_eq_true_iff _ _ _ hN, fun h30 => ?_⟩
  rw [is_valid_crop_eq_true_iff _ _ _ hN]
  have h1 := three_mul_full_le img bbox
  have h2 : 9 * (cropCoords bbox).length < 30 * fullNonBlackPixels img bbox := by
    omega
  have hq1 : (3 : ℚ) * (fullNonBlackPixels img bbox : ℚ) ≤
      ((cropSamples img bbox).countP nonBlack : ℚ) := by exact_mod_cast h1
  have hq2 : (9 : ℚ) * ((cropCoords bbox).length : ℚ) <
      30 * (fullNonBlackPixels img bbox : ℚ) := by exact_mod_cast h2
  linarith

/-- **C9 witness**: a 10×1 crop with 40% fully-white pixels is accepted by
the strict filter. -/
theorem C9_ratio_witness :
    0 < (cropCoords (0, 0, 10, 1)).length
    ∧ ((cropSamples img40pct (0, 0, 10, 1)).countP nonBlack ≤
        3 * (cropCoords (0, 0, 10, 1)).length
      ∧ (is_valid_crop img40pct (0, 0, 10, 1) (9 / 10) = true ↔
          (9 : ℚ) / 10 * (((cropCoords ((0 : Int), (0 : Int), (10 : Int), (1 : Int))).length : Nat) : ℚ) <
            (((cropSamples img40pct (0, 0, 10, 1)).countP nonBlack : Nat) : ℚ))
      ∧ (3 * (cropCoords (0, 0, 10, 1)).length <
            10 * fullNonBlackPixels img40pct (0, 0, 10, 1) →
          is_valid_crop img40pct (0, 0, 10, 1) (9 / 10) = true)) :=
  ⟨by decide, C9_ratio_counts_channel_samples img40pct (0, 0, 10, 1) (by decide)⟩

/-- **C2** (code bug): the strict-mode filter at threshold `0.9` *accepts*
the 10×1 crop whose pixels are 90% fully white and 10% black — the source
counts 27 channel samples against a 10-pixel denominator (ratio `2.7`),
although its own docstring and comments promise the proportion of non-black
pixels, which is exactly `0.9` and should fail the strict `>` test. -/
theorem C2_strict_filter_at_ninety_percent :
    (cropCoords (0, 0, 10, 1)).length = 10
    ∧ fullNonBlackPixels img9010 (0, 0, 10, 1) = 9
    ∧ is_valid_crop img9010 (0, 0, 10, 1) (9 / 10) = true := by
  refine ⟨by decide, ?_, ?_⟩
  · rw [fullNonBlackPixels_eq]
    decide
  · rw [is_valid_crop_eq_true_iff _ _ _ (by decide)]
    have hc : (cropSamples img9010 (0, 0, 10, 1)).countP nonBlack = 27 := by
      rw [nonBlack_eq]
      decide
    have hL : (cropCoords ((0 : Int), (0 : Int), (10 : Int), (1 : Int))).length = 10 := by
      decide
    rw [hc, hL]
    norm_num

/-- **C5 counterexample**: a 50×1 crop in which exactly 2% of the pixels are
non-zero (raw value 10, normalized `10/255 ≈ 0.039`, below the `0.1` cut) is
rejected by the rejection-mode filter at threshold `0.01`, although the
claim says any crop with at least 2% non-zero-intensity pixels is valid. -/
theorem C5_counterexample_nonzero_but_dim :
    (cropCoords (0, 0, 50, 1)).length = 50
    ∧ nonZeroPixels imgDim2pct (0, 0, 50, 1) = 1
    ∧ is_valid_crop imgDim2pct (0, 0, 50, 1) (1 / 100) = false := by
  refine ⟨by decide, by decide, ?_⟩
  have hc : (cropSamples imgDim2pct (0, 0, 50, 1)).countP nonBlack = 0 := by
    rw [nonBlack_eq]
    decide
  have hL : (cropCoords ((0 : Int), (0 : Int), (50 : Int), (1 : Int))).length = 50 := by
    decide
  rw [← Bool.not_eq_true, is_valid_crop_eq_true_iff _ _ _ (by decide), hc, hL]
  push_cast
  norm_num

/-- **C5 amended** (the nearby true statement): the rejection-mode filter at
threshold `0.01` rejects every all-zero crop, and accepts every non-empty
crop in which at least 2% of the pixels have a channel above normalized
intensity `0.1`. -/
theorem C5_amended_rejection_filter (img : ImageRGB)
    (bbox : Int × Int × Int × Int) :
    ((∀ v ∈ cropSamples img bbox, v = 0) →
        is_valid_crop img bbox (1 / 100) = false)
    ∧ (0 < (cropCoords bbox).length →
        (cropCoords bbox).length ≤ 50 * someNonBlackPixels img bbox →
        is_valid_crop img bbox (1 / 100) = true) := by
  constructor
  · intro hz
    have hc : (cropSamples img bbox).countP nonBlack = 0 := by
      rw [List.countP_eq_zero]
      intro v hv
      rw [hz v hv, nonBlack_eq]
      decide
    simp only [is_valid_crop, hc]
    rw [decide_eq_false_iff_not]
    push_cast
    rw [zero_div]
    norm_num
  · intro hN h2
    rw [is_valid_crop_eq_true_iff _ _ _ hN]
    have h1 := some_le_nonBlackCount img bbox
    have hpos : 0 < someNonBlackPixels img bbox := by omega
    have hq1 : ((someNonBlackPixels img bbox : Nat) : ℚ) ≤
        ((cropSamples img bbox).countP nonBlack : ℚ) := by exact_mod_cast h1
    have hq2 : (((cropCoords bbox).length : Nat) : ℚ) ≤
        50 * (someNonBlackPixels img bbox : ℚ) := by exact_mod_cast h2
    have hq3 : (1 : ℚ) ≤ (someNonBlackPixels img bbox : ℚ) := by
      exact_mod_cast hpos
    linarith

/-- **C5 amended witness**: a 50×1 crop with one white pixel (2% of pixels
above the intensity cut) is accepted. -/
theorem C5_amended_witness :
    0 < (cropCoords (0, 0, 50, 1)).length
    ∧ (cropCoords (0, 0, 50, 1)).length ≤
        50 * someNonBlackPixels imgBright2pct (0, 0, 50, 1)
    ∧ is_valid_crop imgBright2pct (0, 0, 50, 1) (1 / 100) = true :=
  ⟨by decide, by rw [someNonBlackPixels_eq]; decide,
    (C5_amended_rejection_filter imgBright2pct (0, 0, 50, 1)).2 (by decide)
      (by rw [someNonBlackPixels_eq]; decide)⟩

/-! ## Claims C7, C10: the output allocator -/

lemma mapOrFail_eq_none {f : α → Option β} {l : List α} :
    mapOrFail f l = none ↔ ∃ a ∈ l, f a = none := by
  induction l with
  | nil => simp [mapOrFail]
  | cons a t ih =>
    cases hfa : f a with
    | none => simp [mapOrFail, hfa]
    | some b =>
      cases hrest : mapOrFail f t with
      | none =>
        simp only [mapOrFail, hfa, hrest]
        constructor
        · intro _
          obtain ⟨x, hx, hxn⟩ := ih.mp hrest
          exact ⟨x, List.mem_cons_of_mem a hx, hxn⟩
        · intro _
          trivial
      | some bs =>
        simp only [mapOrFail, hfa, hrest]
        constructor
        · intro h; exact absurd h (by simp)
        · rintro ⟨x, hx, hxn⟩
          rcases List.mem_cons.mp hx with rfl | hxt
          · rw [hfa] at hxn; exact absurd hxn (by simp)
          · exact absurd hrest (by rw [ih.mpr ⟨x, hxt, hxn⟩]; simp)

lemma mapOrFail_eq_some_of (f : α → Option β) (l : List α)
    (h : ∀ a ∈ l, f a ≠ none) : mapOrFail f l = some (l.filterMap f) := by
  induction l with
  | nil => simp [mapOrFail]
  | cons a t ih =>
    obtain ⟨b, hb⟩ := Option.ne_none_iff_exists'.mp (h a (List.mem_cons_self a t))
    have ht := ih fun x hx => h x (List.mem_cons_of_mem a hx)
    simp [mapOrFail, hb, ht, List.filterMap_cons]

lemma filterMap_length_all_some (f : α → Option β) (l : List α)
    (h : ∀ a ∈ l, f a ≠ none) : (l.filterMap f).length = l.length := by
  induction l with
  | nil => simp
  | cons a t ih =>
    obtain ⟨b, hb⟩ := Option.ne_none_iff_exists'.mp (h a (List.mem_cons_self a t))
    have ht := ih fun x hx => h x (List.mem_cons_of_mem a hx)
    simp [List.filterMap_cons, hb, ht]

lemma foldl_max_mem (l : List Int) (a : Int) :
    l.foldl max a = a ∨ l.foldl max a ∈ l := by
  induction l generalizing a with
  | nil => exact Or.inl rfl
  | cons b t ih =>
    rcases ih (max a b) with h | h
    · rcases max_choice a b with hm | hm
      · exact Or.inl (by rw [List.foldl_cons, h, hm])
      · exact Or.inr (by rw [List.foldl_cons, h, hm]; exact List.mem_cons_self b t)
    · exact Or.inr (List.mem_cons_of_mem b (by rw [List.foldl_cons]; exact h))

lemma le_foldl_max (l : List Int) (a : Int) :
    a ≤ l.foldl max a ∧ ∀ x ∈ l, x ≤ l.foldl max a := by
  induction l generalizing a with
  | nil => exact ⟨le_refl a, by simp⟩
  | cons b t ih =>
    refine ⟨le_trans (le_max_left a b) (ih (max a b)).1, fun x hx => ?_⟩
    rcases List.mem_cons.mp hx with rfl | hxt
    · exact le_trans (le_max_right a x) (ih (max a x)).1
    · exact (ih (max a b)).2 x hxt

lemma max?_spec {l : List Int} {m : Int} (h : l.max? = some m) :
    m ∈ l ∧ ∀ x ∈ l, x ≤ m := by
  cases l with
  | nil => exact absurd h (by simp)
  | cons a t =>
    have hm : m = t.foldl max a := by
      have : (a :: t).max? = some (t.foldl max a) := rfl
      rw [this] at h
      exact (Option.some_injective _ h).symm
    subst hm
    refine ⟨?_, fun x hx => ?_⟩
    · rcases foldl_max_mem t a with h1 | h1
      · rw [h1]; exact List.mem_cons_self a t
      · exact List.mem_cons_of_mem a h1
    · rcases List.mem_cons.mp hx with rfl | hxt
      · exact (le_foldl_max t x).1
      · exact (le_foldl_max t a).2 x hxt

lemma max?_perm {l l' : List Int} (h : l.Perm l') : l.max? = l'.max? := by
  cases hl : l with
  | nil =>
    have : l' = [] := (hl ▸ h).symm.eq_nil
    rw [this]
  | cons a t =>
    cases hl' : l' with
    | nil => exact absurd (hl' ▸ hl ▸ h).eq_nil (by simp)
    | cons a' t' =>
      have h1 : (a :: t).max? = some (t.foldl max a) := rfl
      have h2 : (a' :: t').max? = some (t'.foldl max a') := rfl
      rw [h1, h2]
      have hperm : (a :: t).Perm (a' :: t') := hl' ▸ hl ▸ h
      have s1 := max?_spec h1
      have s2 := max?_spec h2
      have le1 : t.foldl max a ≤ t'.foldl max a' :=
        s2.2 _ (hperm.mem_iff.mp s1.1)
      have le2 : t'.foldl max a' ≤ t.foldl max a :=
        s1.2 _ (hperm.mem_iff.mpr s2.1)
      rw [le_antisymm le1 le2]

/-- `pairNums` is the parse of the `pair_`-prefixed entries. -/
lemma pairNums_eq (listing : List String) :
    pairNums listing =
      (listing.filter fun d => pyStartswith "pair_" d).filterMap
        fun d => ((pySplit '_' d)[1]?).bind pyIntOfString := by
  induction listing with
  | nil => rfl
  | cons d t ih =>
    cases hp : pyStartswith "pair_" d with
    | false => simp [pairNums, List.filterMap_cons, List.filter_cons, hp, ← ih,
        pairNums]
    | true =>
      cases hfd : ((pySplit '_' d)[1]?).bind pyIntOfString with
      | none => simp [pairNums, List.filterMap_cons, List.filter_cons, hp, hfd,
          ← ih, pairNums]
      | some k => simp [pairNums, List.filterMap_cons, List.filter_cons, hp, hfd,
          ← ih, pairNums]

/-- The allocator under the parse precondition, in closed form. -/
lemma gnpn_char (listing : List String)
    (hp : ∀ d ∈ listing, pyStartswith "pair_" d = true →
      ((pySplit '_' d)[1]?).bind pyIntOfString ≠ none) :
    get_next_pair_number listing =
      match (pairNums listing).max? with
      | none => some 1
      | some m => some (m + 1) := by
  simp only [get_next_pair_number]
  by_cases hempty : listing.filter (fun d => pyStartswith "pair_" d) = []
  · rw [if_pos hempty]
    have hnil : pairNums listing = [] := by
      rw [pairNums_eq, hempty, List.filterMap_nil]
    rw [hnil]
    rfl
  · rw [if_neg hempty]
    have hall : ∀ d ∈ listing.filter (fun d => pyStartswith "pair_" d),
        ((pySplit '_' d)[1]?).bind pyIntOfString ≠ none := fun d hd =>
      hp d (List.mem_of_mem_filter hd) (List.of_mem_filter hd)
    rw [mapOrFail_eq_some_of _ _ hall, ← pairNums_eq]
    have hlen : (pairNums listing).length =
        (listing.filter fun d => pyStartswith "pair_" d).length := by
      rw [pairNums_eq]
      exact filterMap_length_all_some _ _ hall
    cases hmax : (pairNums listing).max? with
    | none =>
      exfalso
      cases hnums : pairNums listing with
      | nil =>
        apply hempty
        have := hnums ▸ hlen
        exact List.eq_nil_of_length_eq_zero this.symm
      | cons x xs =>
        rw [hnums] at hmax
        exact absurd hmax (by simp [List.max?])
    | some m => simp [hmax]

/-- **C10** (confirmed): the allocator's scan is total exactly under the
precondition that every `pair_`-prefixed subdirectory name has a parseable
integer between its first and second underscore; one violating entry (such
as `pair_` or `pair_old`) makes `int()` raise an uncaught `ValueError`,
modelled as `none`. -/
theorem C10_allocator_totality (listing : List String) :
    ((∃ d ∈ listing, pyStartswith "pair_" d = true ∧
        ((pySplit '_' d)[1]?).bind pyIntOfString = none) →
      get_next_pair_number listing = none)
    ∧ ((∀ d ∈ listing, pyStartswith "pair_" d = true →
        ((pySplit '_' d)[1]?).bind pyIntOfString ≠ none) →
      (get_next_pair_number listing).isSome = true) := by
  constructor
  · rintro ⟨d, hd, hpre, hnone⟩
    simp only [get_next_pair_number]
    have hmem : d ∈ listing.filter (fun d => pyStartswith "pair_" d) :=
      List.mem_filter.mpr ⟨hd, hpre⟩
    rw [if_neg (List.ne_nil_of_mem hmem)]
    rw [mapOrFail_eq_none.mpr ⟨d, hmem, hnone⟩]
  · intro hp
    rw [gnpn_char listing hp]
    cases (pairNums listing).max? <;> rfl

/-- **C10 witness**: a directory containing only `pair_old` makes the
allocator raise. -/
theorem C10_witness :
    (∃ d ∈ ["pair_old"], pyStartswith "pair_" d = true ∧
      ((pySplit '_' d)[1]?).bind pyIntOfString = none)
    ∧ get_next_pair_number ["pair_old"] = none :=
  ⟨by decide, (C10_allocator_totality ["pair_old"]).1 (by decide)⟩

/-- **C7** (confirmed): under the parse precondition, the allocator returns
`1` when no subdirectory starts with `pair_`, and otherwise one more than
the maximum parsed suffix, independently of the listing order. -/
theorem C7_next_pair_number (listing : List String)
    (hp : ∀ d ∈ listing, pyStartswith "pair_" d = true →
      ((pySplit '_' d)[1]?).bind pyIntOfString ≠ none) :
    (listing.filter (fun d => pyStartswith "pair_" d) = [] →
      get_next_pair_number listing = some 1)
    ∧ (∀ m : Int, (pairNums listing).max? = some m →
        get_next_pair_number listing = some (m + 1))
    ∧ (∀ l', listing.Perm l' →
        get_next_pair_number l' = get_next_pair_number listing) := by
  refine ⟨?_, ?_, ?_⟩
  · intro hempty
    simp only [get_next_pair_number]
    rw [if_pos hempty]
  · intro m hm
    rw [gnpn_char listing hp, hm]
  · intro l' hperm
    have hp' : ∀ d ∈ l', pyStartswith "pair_" d = true →
        ((pySplit '_' d)[1]?).bind pyIntOfString ≠ none := fun d hd =>
      hp d (hperm.mem_iff.mpr hd)
    rw [gnpn_char listing hp, gnpn_char l' hp']
    have hm : (pairNums l').max? = (pairNums listing).max? :=
      max?_perm (List.Perm.filterMap _ hperm.symm)
    rw [hm]

/-- **C7 witness**: with `pair_3` and `pair_7` present the allocator
returns `8`. -/
theorem C7_witness :
    (∀ d ∈ ["pair_3", "pair_7"], pyStartswith "pair_" d = true →
      ((pySplit '_' d)[1]?).bind pyIntOfString ≠ none)
    ∧ get_next_pair_number ["pair_3", "pair_7"] = some 8 := by
  have hp : ∀ d ∈ ["pair_3", "pair_7"], pyStartswith "pair_" d = true →
      ((pySplit '_' d)[1]?).bind pyIntOfString ≠ none := by decide
  refine ⟨hp, ?_⟩
  have h := (C7_next_pair_number ["pair_3", "pair_7"] hp).2.1 7 (by decide)
  simpa using h

/-! ## Claim C3: the pair locator -/

lemma lexLe_refl (as : List Char) : lexLe as as = true := by
  induction as with
  | nil => rfl
  | cons a t ih =>
    rw [lexLe, if_neg (lt_irrefl _), if_neg (lt_irrefl _)]
    exact ih

lemma lexLe_total (as bs : List Char) : lexLe as bs = true ∨ lexLe bs as = true := by
  induction as generalizing bs with
  | nil => exact Or.inl rfl
  | cons a t ih =>
    cases bs with
    | nil => exact Or.inr rfl
    | cons b u =>
      rcases Nat.lt_trichotomy a.toNat b.toNat with h | h | h
      · left
        simp [lexLe, h]
      · rcases ih u with h1 | h1
        · left
          simp [lexLe, h, lt_irrefl, h1]
        · right
          simp [lexLe, h, lt_irrefl, h1]
      · right
        simp [lexLe, h]

lemma lexLe_trans (as bs cs : List Char) (h1 : lexLe as bs = true)
    (h2 : lexLe bs cs = true) : lexLe as cs = true := by
  induction as generalizing bs cs with
  | nil => rfl
  | cons a t ih =>
    cases bs with
    | nil => exact absurd h1 (by simp [lexLe])
    | cons b u =>
      cases cs with
      | nil => exact absurd h2 (by simp [lexLe])
      | cons c v =>
        rw [lexLe] at h1 h2 ⊢
        split_ifs at h1 h2 ⊢ <;>
          first
            | rfl
            | exact absurd h1 Bool.false_ne_true
            | exact absurd h2 Bool.false_ne_true
            | exact ih u v h1 h2
            | (exfalso; omega)

instance : IsTotal (String × String) dateKeyLe :=
  ⟨fun p q => lexLe_total p.1.data q.1.data⟩

instance : IsTrans (String × String) dateKeyLe :=
  ⟨fun _ _ _ h1 h2 => lexLe_trans _ _ _ h1 h2⟩

/-- Every entry of `dated_files` carries the date its filename parses to. -/
lemma datedFiles_parse {files : List String} {p : String × String}
    (hp : p ∈ datedFiles files) : parseDate p.2 = some p.1 := by
  unfold datedFiles at hp
  obtain ⟨f, _, hf⟩ := List.mem_filterMap.mp hp
  cases hpd : parseDate f with
  | none =>
    rw [hpd] at hf
    exact absurd hf (by simp)
  | some d =>
    rw [hpd] at hf
    simp only [Option.map_some'] at hf
    obtain rfl := Option.some_injective _ hf
    exact hpd

/-- In a sorted list, every element is below the last one. -/
lemma sorted_dateKeyLe_getLast :
    ∀ (l : List (String × String)) (hne : l ≠ []), l.Sorted dateKeyLe →
      ∀ p ∈ l, dateKeyLe p (l.getLast hne) := by
  intro l
  induction l with
  | nil => intro hne; exact absurd rfl hne
  | cons a t ih =>
    intro hne hs p hp
    cases t with
    | nil =>
      obtain rfl := List.mem_singleton.mp hp
      exact lexLe_refl p.1.data
    | cons b u =>
      have hlast : (a :: b :: u).getLast hne =
          (b :: u).getLast (List.cons_ne_nil b u) :=
        List.getLast_cons (List.cons_ne_nil b u)
      rcases List.mem_cons.mp hp with rfl | hpt
      · rw [hlast]
        exact List.rel_of_sorted_cons hs _ (List.getLast_mem _)
      · rw [hlast]
        exact ih (List.cons_ne_nil b u) hs.of_cons p hpt

/-- **C3** (confirmed): with at least two parseable dated captures the
locator returns the pair of an earliest-dated and a latest-dated file (in
Python's lexicographic string order on the zero-padded date, `lexLe`); with
fewer than two it returns none. -/
theorem C3_pair_locator (files : List String) :
    ((datedFiles files).length < 2 → get_image_pairs files = none)
    ∧ (2 ≤ (datedFiles files).length →
        ∃ bf af db da, get_image_pairs files = some (bf, af)
          ∧ parseDate bf = some db ∧ parseDate af = some da
          ∧ (db, bf) ∈ datedFiles files ∧ (da, af) ∈ datedFiles files
          ∧ ∀ p ∈ datedFiles files,
              lexLe db.data p.1.data = true ∧ lexLe p.1.data da.data = true) := by
  have hperm := List.perm_insertionSort dateKeyLe (datedFiles files)
  have hsorted := List.sorted_insertionSort dateKeyLe (datedFiles files)
  have hlen := hperm.length_eq
  constructor
  · intro h2
    simp only [get_image_pairs]
    cases hs : List.insertionSort dateKeyLe (datedFiles files) with
    | nil => rfl
    | cons a t =>
      cases t with
      | nil => rfl
      | cons b u =>
        exfalso
        rw [hs] at hlen
        simp only [List.length_cons] at hlen
        omega
  · intro h2
    simp only [get_image_pairs]
    cases hs : List.insertionSort dateKeyLe (datedFiles files) with
    | nil =>
      exfalso
      rw [hs] at hlen
      simp at hlen
      omega
    | cons a t =>
      cases t with
      | nil =>
        exfalso
        rw [hs] at hlen
        simp at hlen
        omega
      | cons b u =>
        have hsorted' : (a :: b :: u).Sorted dateKeyLe := hs ▸ hsorted
        have hmemsort : ∀ p, p ∈ a :: b :: u → p ∈ datedFiles files := by
          intro p hp
          exact hperm.mem_iff.mp (hs ▸ hp)
        have hmemdated : ∀ p ∈ datedFiles files, p ∈ a :: b :: u := by
          intro p hp
          have := hperm.mem_iff.mpr hp
          rw [hs] at this
          exact this
        set last := (b :: u).getLast (List.cons_ne_nil b u) with hlastdef
        have hlast_mem : last ∈ a :: b :: u :=
          List.mem_cons_of_mem a (List.getLast_mem _)
        have ha_mem : a ∈ datedFiles files :=
          hmemsort a (List.mem_cons_self a _)
        have hl_mem : last ∈ datedFiles files := hmemsort last hlast_mem
        refine ⟨a.2, last.2, a.1, last.1, rfl, datedFiles_parse ha_mem,
          datedFiles_parse hl_mem, ?_, ?_, ?_⟩
        · exact ha_mem
        · exact hl_mem
        · intro p hp
          constructor
          · rcases List.mem_cons.mp (hmemdated p hp) with rfl | hpt
            · exact lexLe_refl p.1.data
            · exact List.rel_of_sorted_cons hsorted' p hpt
          · have hglast : (a :: b :: u).getLast (List.cons_ne_nil a (b :: u)) =
                last := List.getLast_cons (List.cons_ne_nil b u)
            have := sorted_dateKeyLe_getLast (a :: b :: u)
              (List.cons_ne_nil a (b :: u)) hsorted' p (hmemdated p hp)
            rw [hglast] at this
            exact this

/-- **C3 witness**: two dated captures yield the earlier file as before and
the later file as after. -/
theorem C3_pair_witness :
    2 ≤ (datedFiles ["2020-06-15_b.tif", "2020-01-01_a.tif"]).length
    ∧ ∃ bf af db da,
        get_image_pairs ["2020-06-15_b.tif", "2020-01-01_a.tif"] = some (bf, af)
        ∧ parseDate bf = some db ∧ parseDate af = some da
        ∧ (db, bf) ∈ datedFiles ["2020-06-15_b.tif", "2020-01-01_a.tif"]
        ∧ (da, af) ∈ datedFiles ["2020-06-15_b.tif", "2020-01-01_a.tif"]
        ∧ ∀ p ∈ datedFiles ["2020-06-15_b.tif", "2020-01-01_a.tif"],
            lexLe db.data p.1.data = true ∧ lexLe p.1.data da.data = true :=
  ⟨by decide, (C3_pair_locator ["2020-06-15_b.tif", "2020-01-01_a.tif"]).2 (by decide)⟩

/-! ## Claim C4: the exhaustive grid -/

/-- The loop `range(0, H - S + 1, S)` started at `k * S` yields the
multiples of `S` from the `k`-th up to the last one with `(i+1)*S ≤ H`. -/
lemma rangeGo_grid (S : Nat) (hS : 0 < S) (H : Nat) :
    ∀ (n k : Nat), n = H / S - k →
      rangeGo ((k * S : Nat) : Int) ((H : Int) - S + 1) S
        = (List.range n).map fun i => (((k + i) * S : Nat) : Int) := by
  intro n
  induction n with
  | zero =>
    intro k hk
    have hdm : H / S * S + H % S = H := Nat.div_add_mod' H S
    have hmod : H % S < S := Nat.mod_lt _ hS
    have hge : H / S ≤ k := by omega
    have hmul : (H / S) * S ≤ k * S := Nat.mul_le_mul_right S hge
    rw [rangeGo, dif_neg]
    · simp
    · rintro ⟨hlt, -⟩
      omega
  | succ n ih =>
    intro k hk
    have hdm : H / S * S + H % S = H := Nat.div_add_mod' H S
    have hmod : H % S < S := Nat.mod_lt _ hS
    have hklt : k < H / S := by omega
    have hmul : (k + 1) * S ≤ (H / S) * S := Nat.mul_le_mul_right S (by omega)
    have hdist : (k + 1) * S = k * S + S := by ring
    rw [rangeGo, dif_pos]
    · have hcast : ((k * S : Nat) : Int) + (S : Int) = (((k + 1) * S : Nat) : Int) := by
        push_cast
        ring
      rw [hcast, ih (k + 1) (by omega), List.range_succ_eq_map, List.map_cons,
        List.map_map]
      congr 1
      apply List.map_congr_left
      intro i _
      simp only [Function.comp, Nat.succ_eq_add_one]
      have hadd : k + 1 + i = k + (i + 1) := by omega
      rw [hadd]
    · exact ⟨by omega, hS⟩

/-- `range(0, H - S + 1, S)` in closed form. -/
lemma pyRange_grid (H S : Nat) (hS : 0 < S) :
    pyRange ((H : Int) - S + 1) S
      = (List.range (H / S)).map fun i => ((i * S : Nat) : Int) := by
  have h := rangeGo_grid S hS H (H / S) 0 (Nat.sub_zero (H / S)).symm
  simp only [Nat.zero_mul, Nat.cast_zero, Nat.zero_add] at h
  exact h

/-- The candidate grid in closed row-major form. -/
lemma candidateBoxes_eq (W H S : Nat) (hS : 0 < S) :
    candidateBoxes W H S = (List.range (H / S)).flatMap fun i =>
      (List.range (W / S)).map fun j =>
        (((j * S : Nat) : Int), ((i * S : Nat) : Int),
         ((j * S + S : Nat) : Int), ((i * S + S : Nat) : Int)) := by
  unfold candidateBoxes
  rw [pyRange_grid H S hS, pyRange_grid W S hS, List.flatMap_map]
  congr 1
  funext i
  rw [List.map_map]
  apply List.map_congr_left
  intro j _
  simp [Function.comp, Nat.cast_add]

/-- Pairwise property of a row-major grid enumeration from a property of
distinct cells. -/
lemma pairwise_grid {α : Type} (R : α → α → Prop) (f : Nat → Nat → α)
    (nY nX : Nat)
    (h : ∀ i j i' j', i < nY → i' < nY → j < nX → j' < nX →
      ¬(i = i' ∧ j = j') → R (f i j) (f i' j')) :
    List.Pairwise R ((List.range nY).flatMap fun i =>
      (List.range nX).map fun j => f i j) := by
  induction nY with
  | zero => simp
  | succ n ih =>
    rw [List.range_succ, List.flatMap_append, List.pairwise_append]
    refine ⟨ih fun i j i' j' hi hi' hj hj' hne =>
      h i j i' j' (by omega) (by omega) hj hj' hne, ?_, ?_⟩
    · simp only [List.flatMap_cons, List.flatMap_nil, List.append_nil]
      rw [List.pairwise_map]
      exact (List.pairwise_lt_range nX).imp_of_mem fun {a b} ha hb hlt =>
        h n a n b (by omega) (by omega) (List.mem_range.mp ha)
          (List.mem_range.mp hb) (by omega)
    · intro a ha b hb
      simp only [List.flatMap_cons, List.flatMap_nil, List.append_nil] at hb
      obtain ⟨i, hi, hmem⟩ := List.mem_flatMap.mp ha
      obtain ⟨j, hj, rfl⟩ := List.mem_map.mp hmem
      obtain ⟨j', hj', rfl⟩ := List.mem_map.mp hb
      have hi' := List.mem_range.mp hi
      exact h i j n j' (by omega) (by omega) (List.mem_range.mp hj)
        (List.mem_range.mp hj') (by omega)

/-- **C4** (confirmed): the exhaustive tiler enumerates exactly
`(W/S) * (H/S)` candidate boxes, in row-major order, all of size `S × S`,
inside the raster (the remainder strips are dropped), and pairwise
non-overlapping. -/
theorem C4_exhaustive_tiler (W H S : Nat) (hS : 0 < S) :
    candidateBoxes W H S = ((List.range (H / S)).flatMap fun i =>
        (List.range (W / S)).map fun j =>
          (((j * S : Nat) : Int), ((i * S : Nat) : Int),
           ((j * S + S : Nat) : Int), ((i * S + S : Nat) : Int)))
    ∧ (candidateBoxes W H S).length = (W / S) * (H / S)
    ∧ (∀ b ∈ candidateBoxes W H S,
        b.2.2.1 - b.1 = (S : Int) ∧ b.2.2.2 - b.2.1 = (S : Int)
        ∧ 0 ≤ b.1 ∧ b.2.2.1 ≤ (W : Int) ∧ 0 ≤ b.2.1 ∧ b.2.2.2 ≤ (H : Int))
    ∧ List.Pairwise boxesDisjoint (candidateBoxes W H S) := by
  have heq := candidateBoxes_eq W H S hS
  refine ⟨heq, ?_, ?_, ?_⟩
  · rw [heq, List.length_flatMap]
    have hmap : List.map (List.length ∘ fun i => (List.range (W / S)).map fun j =>
        (((j * S : Nat) : Int), ((i * S : Nat) : Int),
         ((j * S + S : Nat) : Int), ((i * S + S : Nat) : Int)))
        (List.range (H / S)) = List.map (fun _ => W / S) (List.range (H / S)) := by
      apply List.map_congr_left
      intro i _
      simp
    rw [hmap, List.map_const', List.sum_replicate, smul_eq_mul,
      List.length_range, Nat.mul_comm]
  · intro b hb
    rw [heq] at hb
    obtain ⟨i, hi, hmem⟩ := List.mem_flatMap.mp hb
    obtain ⟨j, hj, rfl⟩ := List.mem_map.mp hmem
    have hi' := List.mem_range.mp hi
    have hj' := List.mem_range.mp hj
    have hjmul : (j + 1) * S ≤ (W / S) * S := Nat.mul_le_mul_right S (by omega)
    have himul : (i + 1) * S ≤ (H / S) * S := Nat.mul_le_mul_right S (by omega)
    have hjd : (j + 1) * S = j * S + S := by ring
    have hid : (i + 1) * S = i * S + S := by ring
    have hWd := Nat.div_mul_le_self W S
    have hHd := Nat.div_mul_le_self H S
    have hbw : j * S + S ≤ W := by omega
    have hbh : i * S + S ≤ H := by omega
    dsimp only
    refine ⟨by push_cast; ring, by push_cast; ring, by positivity, ?_, by positivity, ?_⟩
    · exact_mod_cast hbw
    · exact_mod_cast hbh
  · rw [heq]
    apply pairwise_grid
    intro i j i' j' _ _ _ _ hne
    have key : ∀ a b : Nat, a < b → ((a * S + S : Nat) : Int) ≤ ((b * S : Nat) : Int) := by
      intro a b hab
      have h1 : (a + 1) * S ≤ b * S := Nat.mul_le_mul_right S hab
      have h2 : (a + 1) * S = a * S + S := by ring
      exact_mod_cast (by omega : a * S + S ≤ b * S)
    unfold boxesDisjoint
    dsimp only
    rcases Nat.lt_trichotomy j j' with hjj | hjj | hjj
    · exact Or.inl (key j j' hjj)
    · rcases Nat.lt_trichotomy i i' with hii | hii | hii
      · exact Or.inr (Or.inr (Or.inl (key i i' hii)))
      · exact absurd ⟨hii, hjj⟩ hne
      · exact Or.inr (Or.inr (Or.inr (key i' i hii)))
    · exact Or.inr (Or.inl (key j' j hjj))

/-- **C4 witness**: a 512×512 raster with crop size 256 yields exactly
`(512/256) * (512/256) = 4` candidate boxes. -/
theorem C4_tiler_witness :
    0 < 256 ∧ (candidateBoxes 512 512 256).length = (512 / 256) * (512 / 256) :=
  ⟨by norm_num, (C4_exhaustive_tiler 512 512 256 (by norm_num)).2.1⟩

/-! ## Claim C1: re-running the exhaustive tiling pipeline -/

lemma pairSlotNames_succ (c : Nat) :
    pairSlotNames (c + 1) = pairSlotNames c ++ ["pair_" ++ toString c] := by
  simp [pairSlotNames, List.range_succ]

/-- Invariant of `process_image_pair`'s write loop: starting with `c` slots
already written this run, it writes the slots `pair_c, pair_(c+1), ...`, one
per candidate the predicate accepts. -/
lemma process_foldl (p : Int × Int × Int × Int → Bool) :
    ∀ (l : List (Int × Int × Int × Int)) (c : Nat),
      l.foldl (fun acc bbox =>
          if p bbox then (acc.1 ++ ["pair_" ++ toString acc.2], acc.2 + 1)
          else acc) (pairSlotNames c, c)
        = (pairSlotNames (c + l.countP p), c + l.countP p) := by
  intro l
  induction l with
  | nil =>
    intro c
    simp
  | cons b t ih =>
    intro c
    rw [List.foldl_cons, List.countP_cons]
    by_cases hp : p b = true
    · simp only [if_pos hp]
      rw [← pairSlotNames_succ, ih (c + 1)]
      have h1 : c + 1 + t.countP p = c + (t.countP p + 1) := by omega
      rw [h1]
    · simp only [if_neg hp]
      rw [ih c]
      simp

/-- **C1 counterexample**: the claim "a re-run over a directory already
holding `pair_0 .. pair_(k-1)` never writes into a pre-existing slot" is
false — tiling a 1×1 all-white pair with crop size 1 writes slot `pair_0`
again (the slot names depend only on the in-run counter, never on the
directory contents). -/
theorem C1_counterexample_slot_reuse :
    ¬ (∀ (before after : ImageRGB) (S k : Nat), 0 < k →
        ∀ s ∈ (process_image_pair before after S).1, s ∉ pairSlotNames k) := by
  intro hclaim
  have hcb : candidateBoxes 1 1 1 = [((0 : Int), (0 : Int), (1 : Int), (1 : Int))] := by
    rw [candidateBoxes_eq 1 1 1 Nat.one_pos]
    decide
  have hvalid : is_valid_crop whiteImg1 (0, 0, 1, 1) (9 / 10) = true := by
    rw [is_valid_crop_eq_true_iff _ _ _ (by decide)]
    have hc : (cropSamples whiteImg1 (0, 0, 1, 1)).countP nonBlack = 3 := by
      rw [nonBlack_eq]
      decide
    have hL : (cropCoords ((0 : Int), (0 : Int), (1 : Int), (1 : Int))).length = 1 := by
      decide
    rw [hc, hL]
    norm_num
  have hcount : (candidateBoxes 1 1 1).countP
      (fun bbox => is_valid_crop whiteImg1 bbox (9 / 10) &&
        is_valid_crop whiteImg1 bbox (9 / 10)) = 1 := by
    rw [hcb, List.countP_cons, List.countP_nil]
    rw [hvalid]
    rfl
  have hrun : process_image_pair whiteImg1 whiteImg1 1
      = (pairSlotNames (0 + 1), 0 + 1) := by
    have h := process_foldl
      (fun bbox => is_valid_crop whiteImg1 bbox (9 / 10) &&
        is_valid_crop whiteImg1 bbox (9 / 10)) (candidateBoxes 1 1 1) 0
    rw [hcount] at h
    exact h
  have hmem : "pair_" ++ toString 0 ∈ (process_image_pair whiteImg1 whiteImg1 1).1 := by
    rw [hrun]
    exact List.mem_singleton_self _
  have hmem2 : "pair_" ++ toString 0 ∈ pairSlotNames 1 :=
    List.mem_singleton_self _
  exact hclaim whiteImg1 whiteImg1 1 1 Nat.one_pos _ hmem hmem2

/-- **C1 amended**: `process_image_pair` names its output slots
`pair_0, pair_1, …, pair_(m-1)` where `m` is the number of candidate boxes
valid in both images; the names are independent of any existing directory
contents, so a re-run over a populated directory re-uses (and overwrites)
the lowest-numbered slots rather than appending after the maximum.  (Only
`crop_images.py`'s sampler consults `get_next_pair_number` and appends.) -/
theorem C1_amended_slots_restart_at_zero (before after : ImageRGB) (S : Nat) :
    (process_image_pair before after S).1
      = pairSlotNames ((candidateBoxes before.width before.height S).countP
          fun bbox => is_valid_crop before bbox (9 / 10) &&
            is_valid_crop after bbox (9 / 10))
    ∧ (process_image_pair before after S).2
      = (candidateBoxes before.width before.height S).countP
          fun bbox => is_valid_crop before bbox (9 / 10) &&
            is_valid_crop after bbox (9 / 10) := by
  unfold process_image_pair
  have h := process_foldl
    (fun bbox => is_valid_crop before bbox (9 / 10) &&
      is_valid_crop after bbox (9 / 10))
    (candidateBoxes before.width before.height S) 0
  rw [show (([] : List String), 0) = (pairSlotNames 0, 0) from rfl, h]
  simp

/-! ## Claim C6: the random crop sampler's box -/

lemma pyTrunc_natCast (n : Nat) : pyTrunc ((n : ℚ)) = (n : Int) := by
  unfold pyTrunc
  rw [if_pos (by positivity)]
  exact_mod_cast Int.floor_natCast n

/-- **C6 counterexample**: the claim that every sampled box (the drawn
corner degenerating to `0` when the raster is no larger than the crop) lies
fully within the raster is false — on a 1×1 raster with crop size 2 the
admissible draw `(0, 0)` produces the box `(top, left, bottom, right) =
(0, 0, 2, 2)`, which extends past the raster.  (All quantities involved are
small integers, exactly representable in the source's float arithmetic.) -/
theorem C6_counterexample_degenerate_box :
    ¬ (∀ (width height cropSize x y : Nat),
        (x : Int) ≤ max 0 ((width : Int) - cropSize) →
        (y : Int) ≤ max 0 ((height : Int) - cropSize) →
        let b := bbox_to_yx_np
          (get_random_bounding_box (height, width) (cropSize, cropSize) x y)
          (height, width)
        0 ≤ b.2.1 ∧ b.2.2.2 ≤ (width : Int) ∧ 0 ≤ b.1 ∧ b.2.2.1 ≤ (height : Int)
          ∧ b.2.2.2 - b.2.1 = (cropSize : Int)
          ∧ b.2.2.1 - b.1 = (cropSize : Int)) := by
  intro hclaim
  have hbox : bbox_to_yx_np (get_random_bounding_box (1, 1) (2, 2) 0 0) (1, 1)
      = ((0 : Int), (0 : Int), (2 : Int), (2 : Int)) := by
    simp only [get_random_bounding_box, bbox_to_yx_np, pyTrunc]
    norm_num
  have h := hclaim 1 1 2 0 0 (by simp) (by simp)
  rw [hbox] at h
  obtain ⟨-, h2, -⟩ := h
  exact absurd h2 (by norm_num)

/-- **C6 amended**: when the crop fits (`cropSize ≤ width`,
`cropSize ≤ height`) and the draws respect their `randint` ranges, the
sampled box is exactly `(top, left, bottom, right) = (y, x, y + cropSize,
x + cropSize)`: it lies fully within the raster and both sides are exactly
`cropSize` (in the exact-rational model of the normalization round-trip). -/
theorem C6_amended_box_exact (width height cropSize x y : Nat)
    (hw : 0 < width) (hh : 0 < height)
    (hsw : cropSize ≤ width) (hsh : cropSize ≤ height)
    (hx : x ≤ width - cropSize) (hy : y ≤ height - cropSize) :
    bbox_to_yx_np (get_random_bounding_box (height, width) (cropSize, cropSize) x y)
        (height, width)
      = ((y : Int), (x : Int), ((y + cropSize : Nat) : Int),
         ((x + cropSize : Nat) : Int))
    ∧ (x : Int) + cropSize ≤ (width : Int)
    ∧ (y : Int) + cropSize ≤ (height : Int) := by
  have hWne : ((width : ℚ)) ≠ 0 := Nat.cast_ne_zero.mpr (by omega)
  have hHne : ((height : ℚ)) ≠ 0 := Nat.cast_ne_zero.mpr (by omega)
  refine ⟨?_, ?_, ?_⟩
  · simp only [get_random_bounding_box, bbox_to_yx_np]
    have e1 : (y : ℚ) / height * height = ((y : Nat) : ℚ) :=
      div_mul_cancel₀ _ hHne
    have e2 : (x : ℚ) / width * width = ((x : Nat) : ℚ) :=
      div_mul_cancel₀ _ hWne
    have e3 : ((y : ℚ) + cropSize) / height * height = ((y + cropSize : Nat) : ℚ) := by
      rw [div_mul_cancel₀ _ hHne]
      push_cast
      ring
    have e4 : ((x : ℚ) + cropSize) / width * width = ((x + cropSize : Nat) : ℚ) := by
      rw [div_mul_cancel₀ _ hWne]
      push_cast
      ring
    rw [e1, e2, e3, e4, pyTrunc_natCast, pyTrunc_natCast, pyTrunc_natCast,
      pyTrunc_natCast]
  · exact_mod_cast (by omega : x + cropSize ≤ width)
  · exact_mod_cast (by omega : y + cropSize ≤ height)

/-- **C6 amended witness**: a 2×2 raster, crop size 1, draw `(1, 1)`. -/
theorem C6_amended_box_witness :
    (0 < 2 ∧ 1 ≤ 2 ∧ 1 ≤ 2 - 1)
    ∧ (bbox_to_yx_np (get_random_bounding_box (2, 2) (1, 1) 1 1) (2, 2)
        = ((1 : Int), (1 : Int), ((1 + 1 : Nat) : Int), ((1 + 1 : Nat) : Int))
      ∧ (1 : Int) + 1 ≤ ((2 : Nat) : Int) ∧ (1 : Int) + 1 ≤ ((2 : Nat) : Int)) :=
  ⟨⟨by norm_num, by norm_num, by norm_num⟩,
    C6_amended_box_exact 2 2 1 1 1 (by norm_num) (by norm_num) (by norm_num)
      (by norm_num) (by norm_num) (by norm_num)⟩

/-! ## Claim C8: the bounded-retry sampler -/

lemma cropLoop_attempts_le (before after : ImageRGB) (S : Nat)
    (ex : List String) (draws : Nat → Nat × Nat) :
    ∀ fuel i, (cropLoop before after S ex draws fuel i).2.2 ≤ fuel := by
  intro fuel
  induction fuel with
  | zero =>
    intro i
    simp [cropLoop]
  | succ n ih =>
    intro i
    by_cases hv : attemptValid before after S draws i = true
    · simp only [cropLoop, if_pos hv]
      cases hg : get_next_pair_number ex <;> simp [hg]
    · simp only [cropLoop, if_neg hv]
      exact Nat.succ_le_succ (ih (i + 1))

lemma cropLoop_all_fail (before after : ImageRGB) (S : Nat)
    (ex : List String) (draws : Nat → Nat × Nat) :
    ∀ fuel i, (∀ m, m < fuel → attemptValid before after S draws (i + m) = false) →
      cropLoop before after S ex draws fuel i = (none, [], fuel) := by
  intro fuel
  induction fuel with
  | zero =>
    intro i _
    rfl
  | succ n ih =>
    intro i hall
    have hv : attemptValid before after S draws i = false := by
      have := hall 0 (Nat.succ_pos n)
      simpa using this
    have hvne : ¬ attemptValid before after S draws i = true := by simp [hv]
    simp only [cropLoop, if_neg hvne]
    have hrest := ih (i + 1) fun m hm => by
      have := hall (m + 1) (by omega)
      rwa [show i + (m + 1) = i + 1 + m from by omega] at this
    rw [hrest]

lemma cropLoop_first (before after : ImageRGB) (S : Nat) (ex : List String)
    (draws : Nat → Nat × Nat) (k : Int)
    (halloc : get_next_pair_number ex = some k) :
    ∀ fuel i j, j < fuel → attemptValid before after S draws (i + j) = true →
      (∀ m, m < j → attemptValid before after S draws (i + m) = false) →
      cropLoop before after S ex draws fuel i
        = (some ("pair_" ++ toString k), ["pair_" ++ toString k], j + 1) := by
  intro fuel
  induction fuel with
  | zero =>
    intro i j hj _ _
    exact absurd hj (Nat.not_lt_zero j)
  | succ n ih =>
    intro i j hj hPj hmin
    cases j with
    | zero =>
      have hv : attemptValid before after S draws i = true := by simpa using hPj
      simp only [cropLoop, if_pos hv, halloc]
    | succ j' =>
      have hv : attemptValid before after S draws i = false := by
        have := hmin 0 (Nat.succ_pos j')
        simpa using this
      have hvne : ¬ attemptValid before after S draws i = true := by simp [hv]
      simp only [cropLoop, if_neg hvne]
      have hrest := ih (i + 1) j' (by omega)
        (by rw [show i + 1 + j' = i + (j' + 1) from by omega]; exact hPj)
        (fun m hm => by
          have := hmin (m + 1) (by omega)
          rwa [show i + (m + 1) = i + 1 + m from by omega] at this)
      rw [hrest]

/-- **C8** (confirmed): the sampler performs at most `max_attempts`
attempts; the first attempt whose box passes rejection-mode validity on
both rasters ends the search immediately with one slot written; if every
attempt fails it returns `None` with no slot written and no error. -/
theorem C8_sampler_bounded_first_success (before after : ImageRGB)
    (ex : List String) (S maxA : Nat) (draws : Nat → Nat × Nat) (k : Int)
    (halloc : get_next_pair_number ex = some k) :
    (crop_image_pair before after ex S maxA draws).2.2 ≤ maxA
    ∧ (∀ j, j < maxA → attemptValid before after S draws j = true →
        (∀ i, i < j → attemptValid before after S draws i = false) →
        crop_image_pair before after ex S maxA draws
          = (some ("pair_" ++ toString k), ["pair_" ++ toString k], j + 1))
    ∧ ((∀ i, i < maxA → attemptValid before after S draws i = false) →
        crop_image_pair before after ex S maxA draws = (none, [], maxA)) := by
  refine ⟨cropLoop_attempts_le before after S ex draws maxA 0, ?_, ?_⟩
  · intro j hj hPj hmin
    exact cropLoop_first before after S ex draws k halloc maxA 0 j hj
      (by simpa using hPj) fun m hm => by simpa using hmin m hm
  · intro hall
    exact cropLoop_all_fail before after S ex draws maxA 0
      fun m hm => by simpa using hall m hm

/-- **C8 witness**: a 1×1 all-white pair, crop size 1, one attempt drawing
`(0, 0)`: the first attempt succeeds and slot `pair_1` is written. -/
theorem C8_sampler_witness :
    get_next_pair_number [] = some 1
    ∧ attemptValid whiteImg1 whiteImg1 1 (fun _ => (0, 0)) 0 = true
    ∧ crop_image_pair whiteImg1 whiteImg1 [] 1 1 (fun _ => (0, 0))
        = (some ("pair_" ++ toString (1 : Int)),
           ["pair_" ++ toString (1 : Int)], 0 + 1) := by
  have halloc : get_next_pair_number [] = some 1 := by rfl
  have hbox : bbox_to_yx_np (get_random_bounding_box (1, 1) (1, 1) 0 0) (1, 1)
      = ((0 : Int), (0 : Int), (1 : Int), (1 : Int)) := by
    simp only [get_random_bounding_box, bbox_to_yx_np, pyTrunc]
    norm_num
  have hvalid : is_valid_crop whiteImg1 (0, 0, 1, 1) (1 / 100) = true := by
    rw [is_valid_crop_eq_true_iff _ _ _ (by decide)]
    have hc : (cropSamples whiteImg1 (0, 0, 1, 1)).countP nonBlack = 3 := by
      rw [nonBlack_eq]
      decide
    have hL : (cropCoords ((0 : Int), (0 : Int), (1 : Int), (1 : Int))).length = 1 := by
      decide
    rw [hc, hL]
    norm_num
  have hv : attemptValid whiteImg1 whiteImg1 1 (fun _ => (0, 0)) 0 = true := by
    unfold attemptValid
    rw [show (whiteImg1.height, whiteImg1.width) = ((1 : Nat), (1 : Nat)) from rfl]
    dsimp only
    rw [hbox]
    dsimp only
    rw [hvalid]
    rfl
  exact ⟨halloc, hv,
    (C8_sampler_bounded_first_success whiteImg1 whiteImg1 [] 1 1
        (fun _ => (0, 0)) 1 halloc).2.1 0 Nat.one_pos hv
      fun i hi => absurd hi (Nat.not_lt_zero i)⟩

end WUVision
